import Mathlib

/-!
Verification of the deb2aci dependency-closure resolver and image assembler
(`main.go`).  The Go source is shallowly embedded: strings become `String`
(with the character-level work done on `List Char`), the mutable
`done map[string]*deb` becomes an insertion-ordered association list threaded
through the recursion, external processes (`apt-get`, `dpkg-deb`, `cp`,
`actool`) become oracle functions packaged in environment records, and the
recursion of `download` is made total with an explicit fuel parameter (the Go
function recurses on the real call stack; fuel exhaustion is reported by a
dedicated `timeout` outcome that the termination theorems rule out for
adequate fuel).
-/

namespace Deb2Aci

/-! ### Characters and whitespace (Go `strings.TrimSpace`, `strings.Split`) -/

/-- Go's `unicode.IsSpace` restricted to the code points that matter here:
space, tab, newline, vertical tab, form feed, carriage return, NEL, NBSP. -/
def goIsSpace (c : Char) : Bool :=
  c == ' ' || c == '\t' || c == '\n' || c == '\x0b' || c == '\x0c' || c == '\r' ||
    c.val == 0x85 || c.val == 0xa0

/-- Drop leading whitespace, as the front half of Go's `strings.TrimSpace`. -/
def trimLeft (l : List Char) : List Char := l.dropWhile goIsSpace

/-- Drop trailing whitespace, as the back half of Go's `strings.TrimSpace`. -/
def trimRight : List Char → List Char
  | [] => []
  | a :: rest =>
    match trimRight rest with
    | [] => if goIsSpace a then [] else [a]
    | r => a :: r

/-- Go's `strings.TrimSpace` on a character list. -/
def trimSpace (l : List Char) : List Char := trimRight (trimLeft l)

/-- Go's `strings.Split(s, sep)` for a one-character separator: splitting the
empty string yields `[[]]`, and the result is never empty. -/
def splitChar (c : Char) : List Char → List (List Char)
  | [] => [[]]
  | a :: l =>
    if a = c then [] :: splitChar c l
    else
      match splitChar c l with
      | [] => [[a]]
      | p :: ps => (a :: p) :: ps

/-! ### `parseDeps` (main.go lines 204-219) -/

/-- Character-level body of `parseDeps`: trim the line; an empty result yields
no dependencies; otherwise split on commas and keep the first
space-separated token of each trimmed clause.  `headD` is safe because
`splitChar` never returns an empty list, mirroring Go's total `o[0]`. -/
def parseDepsL (line : List Char) : List (List Char) :=
  if (trimSpace line).length = 0 then []
  else
    if (splitChar ',' (trimSpace line)).length = 0 then []
    else (splitChar ',' (trimSpace line)).map (fun p => (splitChar ' ' (trimSpace p)).headD [])

/-- `parseDeps` from main.go: dependency names extracted from a raw
`Depends` declaration. -/
def parseDeps (line : String) : List String :=
  (parseDepsL line.toList).map List.asString

example : parseDeps "libc6 (>= 2.14), libssl1.1" = ["libc6", "libssl1.1"] := by decide
example : parseDeps "foo | bar" = ["foo"] := by decide
example : parseDeps "a,,b" = ["a", "", "b"] := by decide
example : parseDeps "   " = [] := by decide
example : parseDeps "a\tb" = ["a\tb"] := by decide

/-! ### The resolver state (main.go lines 139-202)

The Go `done map[string]*deb` is passed by reference and mutated in place, so
its contents survive an error return.  It is embedded as an insertion-ordered
association list carried in every outcome of the computation.  Go map
iteration order is unspecified; the spec (section 3) treats discovery order as
the closure order, which is exactly the insertion order of this list.  The
`fetched` trace records one entry per `apt-get download` invocation, so that
"visited exactly once" is directly observable. -/

/-- The `deb` record from main.go (name, extracted-tree path, version,
architecture). -/
structure deb where
  name : String
  path : String
  version : String
  arch : String
deriving DecidableEq, Repr

/-- One `*.deb` artifact as the external tools expose it: the control fields
read by `dpkg-deb -f` (`Architecture`, `Version`, `Depends`) and the
directory the archive is extracted to (`tdir/out`). -/
structure Artifact where
  arch : String
  version : String
  depends : String
  path : String
deriving DecidableEq, Repr

/-- Oracle for the external tools invoked by `download`.
`aptOk` covers temp-dir creation and `apt-get download` (lines 147-156);
`glob` is the `filepath.Glob(tdir, "*.deb")` result (line 158);
`extractOk` covers `dpkg-deb -x` and the `Architecture`/`Version` reads
(lines 163-178), all of which fail before the package is recorded;
`dependsOk` is the `Depends` read (line 188), which fails after it. -/
structure Env where
  aptOk : String → Bool
  glob : String → List Artifact
  extractOk : String → Bool
  dependsOk : String → Bool

/-- The unique artifact for a package, meaningful when
`(glob pkg).length = 1` (the code reads `matches[0]`). -/
def artifactOf (env : Env) (pkg : String) : Artifact :=
  (env.glob pkg).headD ⟨"", "", "", ""⟩

/-- A package name is fetchable when every step up to and including metadata
extraction succeeds, which is exactly when `download` records it. -/
def fetchOkB (env : Env) (pkg : String) : Bool :=
  env.aptOk pkg && (env.glob pkg).length == 1 && env.extractOk pkg

/-- The dependency names the resolver descends into from `pkg`. -/
def pkgDeps (env : Env) (pkg : String) : List String :=
  parseDeps (artifactOf env pkg).depends

/-- Resolver state: the `done` map (insertion-ordered) and the trace of
actually fetched names. -/
structure DLState where
  done : List (String × deb)
  fetched : List String
deriving DecidableEq, Repr

/-- First-match lookup in the `done` association list. -/
def lookupD (l : List (String × deb)) (k : String) : Option deb :=
  match l with
  | [] => none
  | (k', v) :: rest => if k' = k then some v else lookupD rest k

/-- The package names recorded in a `done` list, in insertion order. -/
def doneKeys (l : List (String × deb)) : List String := l.map Prod.fst

/-- Failure modes of `download`, one per `return err` site. -/
inductive DlErr where
  | aptError (pkg : String)
  | fetchError (pkg : String)
  | metaError (pkg : String)
  | dependsError (pkg : String)
deriving DecidableEq, Repr

/-- Outcome of a resolver call.  Every constructor carries the state because
the Go `done` map is mutated in place: its growth survives errors.
`timeout` is the fuel-exhaustion artifact of the embedding. -/
inductive DLOut where
  | ok (st : DLState)
  | err (e : DlErr) (st : DLState)
  | timeout (st : DLState)
deriving DecidableEq, Repr

/-- The state carried by an outcome. -/
def DLOut.state : DLOut → DLState
  | .ok st => st
  | .err _ st => st
  | .timeout st => st

/-- Whether the outcome is success. -/
def DLOut.isOk : DLOut → Bool
  | .ok _ => true
  | _ => false

/-- Whether the outcome is fuel exhaustion. -/
def DLOut.isTimeout : DLOut → Bool
  | .timeout _ => true
  | _ => false

/-- The `for _, d := range deps` loop of `download` (lines 195-199): run `f`
on each name in order, threading the state, aborting on the first non-`ok`
outcome. -/
def dlList (f : String → DLState → DLOut) : List String → DLState → DLOut
  | [], st => .ok st
  | d :: rest, st =>
    match f d st with
    | .ok st1 => dlList f rest st1
    | out => out

/-- The `deb` record built at line 180: name, extraction directory,
version, architecture of the unique artifact. -/
def stepDeb (env : Env) (pkg : String) : deb :=
  ⟨pkg, (artifactOf env pkg).path, (artifactOf env pkg).version, (artifactOf env pkg).arch⟩

/-- The state right after `done[pkg] = &deb{...}` (line 180): the package is
appended to the `done` map and to the fetch trace. -/
def stepState (env : Env) (pkg : String) (st : DLState) : DLState :=
  ⟨st.done ++ [(pkg, stepDeb env pkg)], st.fetched ++ [pkg]⟩

/-- `download` from main.go lines 139-202, with fuel making the call-stack
recursion total.  An already-recorded name returns immediately (lines
142-145); otherwise the package is fetched, checked to have exactly one
matching artifact (lines 158-161), extracted, recorded (line 180), and its
parsed dependencies are resolved in order (lines 188-199).  A failing
`Depends` read happens after the package is recorded, so it reports the
grown state. -/
def download (env : Env) : Nat → String → DLState → DLOut
  | 0, _, st => .timeout st
  | fuel + 1, pkg, st =>
    if (lookupD st.done pkg).isSome then .ok st
    else if env.aptOk pkg = false then .err (.aptError pkg) st
    else if (env.glob pkg).length ≠ 1 then .err (.fetchError pkg) st
    else if env.extractOk pkg = false then .err (.metaError pkg) st
    else if env.dependsOk pkg = false then .err (.dependsError pkg) (stepState env pkg st)
    else dlList (download env fuel) (pkgDeps env pkg) (stepState env pkg st)

/-- The root loop of `convert` (lines 93-97): resolve each root in order over
a shared `done` map. -/
def downloadList (env : Env) (fuel : Nat) (roots : List String) (st : DLState) : DLOut :=
  dlList (download env fuel) roots st

/-! ### Manifest and image assembly (main.go lines 101-137) -/

/-- One manifest annotation entry (`name`/`value` pair). -/
structure AnnPair where
  name : String
  value : String
deriving DecidableEq, Repr

/-- The image manifest: an opaque base document plus the annotation list. -/
structure ImageManifest where
  base : String
  anns : List AnnPair
deriving DecidableEq, Repr

/-- Modelled from the spec: the appc schema type `Annotations` and its `Set`
method are vendored outside `src/`; spec section 4.4 specifies that the
annotator appends an entry per resolved package and that pre-existing
entries are preserved unchanged, so `Set` is modelled as an append. -/
def annSet (m : ImageManifest) (k v : String) : ImageManifest :=
  { m with anns := m.anns ++ [⟨k, v⟩] }

/-- The generated annotation key `debian.org/deb/<name>` (line 115). -/
def debKey (name : String) : String := "debian.org/deb/" ++ name

/-- The generated annotation value `<arch>/<version>` (line 124). -/
def debValue (d : deb) : String := d.arch ++ "/" ++ d.version

/-- Oracle for the external effects of `createACI`: per-path success of
`cp -a` (line 110), the identifier sanitizer (lines 114-122, vendored appc
code, abstracted as a partial String map), temp-dir creation, manifest
marshalling, manifest writing, and `actool build`. -/
structure AciEnv where
  tmpOk : Bool
  copyOk : String → Bool
  sanitize : String → Option String
  marshalOk : Bool
  writeOk : Bool
  packOk : Bool

/-- Failure modes of `createACI`, one per `return` site. -/
inductive AciErr where
  | tempDirError
  | filesystemError (path : String)
  | identifierError (name : String)
  | marshalError
  | writeError
  | packError
deriving DecidableEq, Repr

/-- State of the merge-and-annotate loop: error (if any), the in-memory
manifest, and the ordered list of package trees copied into `rootfs`. -/
structure AciState where
  err : Option AciErr
  manifest : ImageManifest
  rootfs : List String
deriving DecidableEq, Repr

/-- The `for _, d := range fs` loop of `createACI` (lines 109-125): copy the
package tree (aborting on failure), then sanitize the identifier (aborting
on failure; the copy has already happened), then append the annotation. -/
def aciLoop (aenv : AciEnv) : List (String × deb) → ImageManifest → List String → AciState
  | [], m, root => ⟨none, m, root⟩
  | (_, d) :: rest, m, root =>
    if aenv.copyOk d.path = false then ⟨some (.filesystemError d.path), m, root⟩
    else
      let root1 := root ++ [d.path]
      match aenv.sanitize (debKey d.name) with
      | none => ⟨some (.identifierError d.name), m, root1⟩
      | some k => aciLoop aenv rest (annSet m k (debValue d)) root1

/-- Result of `createACI`: the loop state plus whether the manifest file was
written and the image built. -/
structure AciFinal where
  res : AciState
  manifestWritten : Bool
  imageBuilt : Bool
deriving DecidableEq, Repr

/-- `createACI` from main.go lines 101-137: image temp dir, the
merge-and-annotate loop, marshal, write manifest, `actool build`. -/
def createACI (aenv : AciEnv) (fs : List (String × deb)) (m : ImageManifest) : AciFinal :=
  if aenv.tmpOk = false then ⟨⟨some .tempDirError, m, []⟩, false, false⟩
  else
    let r := aciLoop aenv fs m []
    match r.err with
    | some _ => ⟨r, false, false⟩
    | none =>
      if aenv.marshalOk = false then ⟨⟨some .marshalError, r.manifest, r.rootfs⟩, false, false⟩
      else if aenv.writeOk = false then ⟨⟨some .writeError, r.manifest, r.rootfs⟩, false, false⟩
      else if aenv.packOk = false then ⟨⟨some .packError, r.manifest, r.rootfs⟩, true, false⟩
      else ⟨r, true, true⟩

/-- Top-level errors of `convert`. -/
inductive ConvErr where
  | dl (e : DlErr)
  | aci (e : AciErr)
  | fuelExhausted
deriving DecidableEq, Repr

/-- Observable outcome of `convert`: error (if any), the computed closure,
whether a manifest file and an image were produced, and whether the working
directory was removed. -/
structure ConvertOut where
  err : Option ConvErr
  closure : List (String × deb)
  manifestWritten : Bool
  imageBuilt : Bool
  workDirRemoved : Bool
deriving DecidableEq, Repr

/-- `convert` from main.go lines 80-99: resolve every root into a fresh
`done` map, then assemble the image.  The `defer os.RemoveAll(dir)`
registered right after the working directory is created runs on every exit
path, so `workDirRemoved` is true in every outcome. -/
def convert (env : Env) (aenv : AciEnv) (fuel : Nat) (pkgs : List String)
    (m : ImageManifest) : ConvertOut :=
  match downloadList env fuel pkgs ⟨[], []⟩ with
  | .ok st =>
    let r := createACI aenv st.done m
    ⟨r.res.err.map ConvErr.aci, st.done, r.manifestWritten, r.imageBuilt, true⟩
  | .err e st => ⟨some (.dl e), st.done, false, false, true⟩
  | .timeout st => ⟨some .fuelExhausted, st.done, false, false, true⟩

/-! ### Scratch checks: the diamond graph A -> {B, C}, B -> D, C -> D -/

/-- Diamond test fetcher: `A` depends on `B, C`; `B` and `C` depend on `D`;
`D` has no dependencies; nothing else resolves. -/
def denvD : Env where
  aptOk := fun _ => true
  glob := fun p =>
    if p = "A" then [⟨"amd64", "1.0", "B, C", "/w/A/out"⟩]
    else if p = "B" then [⟨"amd64", "1.1", "D", "/w/B/out"⟩]
    else if p = "C" then [⟨"amd64", "1.2", "D (>= 0.5)", "/w/C/out"⟩]
    else if p = "D" then [⟨"amd64", "0.9", "", "/w/D/out"⟩]
    else []
  extractOk := fun _ => true
  dependsOk := fun _ => true

example : (downloadList denvD 5 ["A"] ⟨[], []⟩).isOk = true := by decide
example : doneKeys (downloadList denvD 5 ["A"] ⟨[], []⟩).state.done = ["A", "B", "D", "C"] := by
  decide
example : (downloadList denvD 5 ["A"] ⟨[], []⟩).state.fetched = ["A", "B", "D", "C"] := by decide

/-! ### Association-list lemmas -/

theorem lookupD_append_some {l : List (String × deb)} {k : String} {v : deb}
    (h : lookupD l k = some v) (t : List (String × deb)) : lookupD (l ++ t) k = some v := by
  induction l with
  | nil => simp [lookupD] at h
  | cons a l ih =>
    obtain ⟨k', v'⟩ := a
    simp only [List.cons_append, lookupD] at h ⊢
    split at h
    · rename_i hk
      rw [if_pos hk]
      exact h
    · rename_i hk
      rw [if_neg hk]
      exact ih h

theorem lookupD_append_none {l : List (String × deb)} {k : String}
    (h : lookupD l k = none) (t : List (String × deb)) : lookupD (l ++ t) k = lookupD t k := by
  induction l with
  | nil => simp
  | cons a l ih =>
    obtain ⟨k', v'⟩ := a
    simp only [lookupD] at h ⊢
    split at h
    · exact absurd h (by simp)
    · simp only [*, if_neg]
      exact ih h

theorem lookupD_none_iff {l : List (String × deb)} {k : String} :
    lookupD l k = none ↔ k ∉ doneKeys l := by
  induction l with
  | nil => simp [lookupD, doneKeys]
  | cons a l ih =>
    obtain ⟨k', v'⟩ := a
    simp only [lookupD, doneKeys, List.map_cons, List.mem_cons]
    constructor
    · intro h
      split at h
      · exact absurd h (by simp)
      · intro hc
        rcases hc with hc | hc
        · exact (by assumption : ¬k' = k) hc.symm
        · exact (ih.mp h) (by simpa [doneKeys] using hc)
    · intro h
      have hne : ¬k' = k := fun he => h (Or.inl he.symm)
      rw [if_neg hne]
      exact ih.mpr (fun hm => h (Or.inr (by simpa [doneKeys] using hm)))

theorem lookupD_isSome_iff {l : List (String × deb)} {k : String} :
    (lookupD l k).isSome = true ↔ k ∈ doneKeys l := by
  rcases h : lookupD l k with _ | v
  · simp only [Option.isSome_none, Bool.false_eq_true, false_iff]
    exact lookupD_none_iff.mp h
  · simp only [Option.isSome_some, true_iff]
    by_contra hc
    rw [lookupD_none_iff.mpr hc] at h
    exact absurd h (by simp)

theorem doneKeys_append (l t : List (String × deb)) :
    doneKeys (l ++ t) = doneKeys l ++ doneKeys t := List.map_append _ _ _

/-! ### State growth: the `done` map and fetch trace only ever gain entries -/

/-- `st'` extends `st`: both components of `st'` are `st`'s with entries
appended. -/
def Extends (st st' : DLState) : Prop :=
  (∃ t, st'.done = st.done ++ t) ∧ ∃ u, st'.fetched = st.fetched ++ u

theorem Extends.refl (st : DLState) : Extends st st :=
  ⟨⟨[], by simp⟩, ⟨[], by simp⟩⟩

theorem Extends.trans {s t u : DLState} (h1 : Extends s t) (h2 : Extends t u) :
    Extends s u := by
  obtain ⟨⟨t1, ht1⟩, ⟨u1, hu1⟩⟩ := h1
  obtain ⟨⟨t2, ht2⟩, ⟨u2, hu2⟩⟩ := h2
  exact ⟨⟨t1 ++ t2, by rw [ht2, ht1, List.append_assoc]⟩,
    ⟨u1 ++ u2, by rw [hu2, hu1, List.append_assoc]⟩⟩

theorem Extends.step (env : Env) (pkg : String) (st : DLState) :
    Extends st (stepState env pkg st) :=
  ⟨⟨[(pkg, stepDeb env pkg)], rfl⟩, ⟨[pkg], rfl⟩⟩

theorem Extends.keys_sub {st st' : DLState} (h : Extends st st') {x : String}
    (hx : x ∈ doneKeys st.done) : x ∈ doneKeys st'.done := by
  obtain ⟨⟨t, ht⟩, -⟩ := h
  rw [ht, doneKeys_append]
  exact List.mem_append_left _ hx

theorem Extends.lookup_some {st st' : DLState} (h : Extends st st') {k : String} {v : deb}
    (hk : lookupD st.done k = some v) : lookupD st'.done k = some v := by
  obtain ⟨⟨t, ht⟩, -⟩ := h
  rw [ht]
  exact lookupD_append_some hk t

theorem dlList_extends {f : String → DLState → DLOut}
    (hf : ∀ d st, Extends st (f d st).state) :
    ∀ (l : List String) (st : DLState), Extends st (dlList f l st).state := by
  intro l
  induction l with
  | nil => intro st; exact Extends.refl st
  | cons d rest ih =>
    intro st
    simp only [dlList]
    rcases h : f d st with st1 | ⟨e1, st1⟩ | st1
    · have h1 : Extends st st1 := by have := hf d st; rwa [h] at this
      exact h1.trans (ih st1)
    · have := hf d st; rwa [h] at this
    · have := hf d st; rwa [h] at this

theorem download_extends (env : Env) :
    ∀ (fuel : Nat) (pkg : String) (st : DLState),
      Extends st (download env fuel pkg st).state := by
  intro fuel
  induction fuel with
  | zero => intro pkg st; exact Extends.refl st
  | succ fuel ih =>
    intro pkg st
    simp only [download]
    split
    · exact Extends.refl st
    split
    · exact Extends.refl st
    split
    · exact Extends.refl st
    split
    · exact Extends.refl st
    split
    · exact Extends.step env pkg st
    · exact (Extends.step env pkg st).trans (dlList_extends ih _ _)

theorem downloadList_extends (env : Env) (fuel : Nat) (roots : List String) (st : DLState) :
    Extends st (downloadList env fuel roots st).state :=
  dlList_extends (download_extends env fuel) roots st

/-! ### Success facts: a completed call leaves its package recorded -/

theorem download_skip {env : Env} {pkg : String} {st : DLState} (fuel : Nat)
    (h : (lookupD st.done pkg).isSome = true) :
    download env (fuel + 1) pkg st = .ok st := by
  simp [download, h]

theorem download_ok_mem {env : Env} {fuel : Nat} {pkg : String} {st st' : DLState}
    (h : download env fuel pkg st = .ok st') : (lookupD st'.done pkg).isSome = true := by
  match fuel with
  | 0 => exact absurd h (by simp [download])
  | fuel + 1 =>
    rw [download] at h
    split at h
    · cases h
      assumption
    split at h
    · cases h
    split at h
    · cases h
    split at h
    · cases h
    split at h
    · cases h
    · rename_i h0 _ _ _ _
      have hnone : lookupD st.done pkg = none := by
        rcases hl : lookupD st.done pkg with _ | v
        · rfl
        · rw [hl] at h0; simp at h0
      have hst1 : lookupD (stepState env pkg st).done pkg = some (stepDeb env pkg) := by
        show lookupD (st.done ++ [(pkg, stepDeb env pkg)]) pkg = _
        rw [lookupD_append_none hnone]
        simp [lookupD]
      have hext : Extends (stepState env pkg st) st' := by
        have := dlList_extends (download_extends env fuel) (pkgDeps env pkg)
          (stepState env pkg st)
        rwa [h] at this
      rw [hext.lookup_some hst1]
      rfl

theorem dlList_ok_mem {f : String → DLState → DLOut}
    (hext : ∀ d st, Extends st (f d st).state)
    (hmem : ∀ d st st', f d st = .ok st' → (lookupD st'.done d).isSome = true) :
    ∀ (l : List String) (st st' : DLState), dlList f l st = .ok st' →
      ∀ d ∈ l, d ∈ doneKeys st'.done := by
  intro l
  induction l with
  | nil => intro st st' h d hd; cases hd
  | cons d rest ih =>
    intro st st' h e he
    simp only [dlList] at h
    rcases hf : f d st with st1 | ⟨e1, st1⟩ | st1 <;> rw [hf] at h
    · have h1 : dlList f rest st1 = .ok st' := h
      have hext' : Extends st1 st' := by
        have := dlList_extends hext rest st1; rwa [h1] at this
      rcases List.mem_cons.mp he with he' | he'
      · subst he'
        exact hext'.keys_sub (lookupD_isSome_iff.mp (hmem e st st1 hf))
      · exact ih st1 st' h1 e he'
    · exact absurd h (by simp)
    · exact absurd h (by simp)

/-! ### Deduplicating the root list does not change the resolution -/

/-- First-occurrence deduplication, keeping the order of first appearances. -/
def dedupFirstAux (seen : List String) : List String → List String
  | [] => []
  | a :: rest =>
    if seen.contains a then dedupFirstAux seen rest
    else a :: dedupFirstAux (a :: seen) rest

/-- Remove every later duplicate of each name, keeping first occurrences. -/
def dedupFirst (l : List String) : List String := dedupFirstAux [] l

theorem dlList_dedupAux (env : Env) (fuel : Nat) :
    ∀ (l seen : List String) (st : DLState),
      (∀ s ∈ seen, s ∈ doneKeys st.done) →
      downloadList env (fuel + 1) l st =
        downloadList env (fuel + 1) (dedupFirstAux seen l) st := by
  intro l
  induction l with
  | nil => intro seen st _; rfl
  | cons a rest ih =>
    intro seen st hseen
    by_cases hs : seen.contains a
    · have ha : a ∈ doneKeys st.done := hseen a (List.mem_of_elem_eq_true hs)
      have hskip : download env (fuel + 1) a st = .ok st :=
        download_skip fuel (lookupD_isSome_iff.mpr ha)
      have hL : downloadList env (fuel + 1) (a :: rest) st =
          downloadList env (fuel + 1) rest st := by
        show dlList _ (a :: rest) st = _
        simp only [dlList, hskip]
        rfl
      rw [hL]
      simp only [dedupFirstAux, if_pos hs]
      exact ih seen st hseen
    · simp only [dedupFirstAux, if_neg hs]
      show dlList _ (a :: rest) st = dlList _ (a :: dedupFirstAux (a :: seen) rest) st
      simp only [dlList]
      rcases hd : download env (fuel + 1) a st with st1 | ⟨e1, st1⟩ | st1
      · have hext : Extends st st1 := by
          have := download_extends env (fuel + 1) a st; rwa [hd] at this
        refine ih (a :: seen) st1 ?_
        intro s hsmem
        rcases List.mem_cons.mp hsmem with h' | h'
        · subst h'
          exact lookupD_isSome_iff.mp (download_ok_mem hd)
        · exact hext.keys_sub (hseen s h')
      · rfl
      · rfl

theorem downloadList_dedup (env : Env) (fuel : Nat) (roots : List String) (st : DLState) :
    downloadList env (fuel + 1) roots st =
      downloadList env (fuel + 1) (dedupFirst roots) st :=
  dlList_dedupAux env fuel roots [] st (by intro s hs; cases hs)

/-! ### Termination: enough fuel rules out the timeout artifact -/

/-- The number of names of the finite universe `U` not yet recorded in the
`done` map: the measure that shrinks at every real fetch. -/
def remaining (U : List String) (st : DLState) : Nat :=
  (U.filter (fun p => (lookupD st.done p).isNone)).length

theorem length_filter_le_of_imp {p q : String → Bool}
    (h : ∀ a, p a = true → q a = true) :
    ∀ l : List String, (l.filter p).length ≤ (l.filter q).length := by
  intro l
  induction l with
  | nil => simp
  | cons a l ih =>
    rcases hp : p a with _ | _
    · rcases hq : q a with _ | _
      · simpa [List.filter, hp, hq] using ih
      · simp only [List.filter, hp, hq]
        exact Nat.le_succ_of_le ih
    · simp only [List.filter, hp, h a hp]
      exact Nat.succ_le_succ ih

theorem length_filter_lt {p q : String → Bool}
    (h : ∀ a, p a = true → q a = true) {x : String} (hqx : q x = true) (hpx : p x = false) :
    ∀ l : List String, x ∈ l → (l.filter p).length < (l.filter q).length := by
  intro l
  induction l with
  | nil => intro hx; cases hx
  | cons a l ih =>
    intro hx
    rcases List.mem_cons.mp hx with hx' | hx'
    · subst hx'
      simp only [List.filter, hpx, hqx]
      exact Nat.lt_succ_of_le (length_filter_le_of_imp h l)
    · rcases hp : p a with _ | _
      · rcases hq : q a with _ | _
        · simpa [List.filter, hp, hq] using ih hx'
        · simp only [List.filter, hp, hq]
          exact Nat.lt_succ_of_lt (ih hx')
      · simp only [List.filter, hp, h a hp]
        exact Nat.succ_lt_succ (ih hx')

theorem remaining_le_of_extends {st st' : DLState} (U : List String)
    (h : Extends st st') : remaining U st' ≤ remaining U st := by
  refine length_filter_le_of_imp ?_ U
  intro a ha
  rcases hl : lookupD st.done a with _ | v
  · simp
  · rw [h.lookup_some hl] at ha
    exact absurd ha (by simp)

theorem remaining_strict {env : Env} {pkg : String} {st : DLState} {U : List String}
    (hnone : lookupD st.done pkg = none) (hmem : pkg ∈ U) :
    remaining U (stepState env pkg st) < remaining U st := by
  refine length_filter_lt ?_ ?_ ?_ U hmem
  · intro a ha
    rcases hl : lookupD st.done a with _ | v
    · simp
    · rw [(Extends.step env pkg st).lookup_some hl] at ha
      exact absurd ha (by simp)
  · simp [hnone]
  · have : lookupD (stepState env pkg st).done pkg = some (stepDeb env pkg) := by
      show lookupD (st.done ++ [(pkg, stepDeb env pkg)]) pkg = _
      rw [lookupD_append_none hnone]
      simp [lookupD]
    simp [this]

theorem dlList_noTimeout {f : String → DLState → DLOut} {U : List String} {fuel : Nat}
    (hf : ∀ d st, remaining U st < fuel → (f d st).isTimeout = false)
    (hfR : ∀ d st, remaining U (f d st).state ≤ remaining U st) :
    ∀ (l : List String) (st : DLState), remaining U st < fuel →
      (dlList f l st).isTimeout = false := by
  intro l
  induction l with
  | nil => intro st _; rfl
  | cons d rest ih =>
    intro st hst
    simp only [dlList]
    rcases hd : f d st with st1 | ⟨e1, st1⟩ | st1
    · refine ih st1 (Nat.lt_of_le_of_lt ?_ hst)
      have := hfR d st
      rwa [hd] at this
    · rfl
    · have := hf d st hst
      rw [hd] at this
      exact absurd this (by simp [DLOut.isTimeout])

theorem download_noTimeout (env : Env) (U : List String)
    (hU : ∀ p, fetchOkB env p = true → p ∈ U) :
    ∀ (fuel : Nat) (pkg : String) (st : DLState), remaining U st < fuel →
      (download env fuel pkg st).isTimeout = false := by
  intro fuel
  induction fuel with
  | zero => intro pkg st h; exact absurd h (Nat.not_lt_zero _)
  | succ fuel ih =>
    intro pkg st hst
    simp only [download]
    split
    · rfl
    split
    · rfl
    split
    · rfl
    split
    · rfl
    split
    · rfl
    · rename_i h0 h1 h2 h3 h4
      have hnone : lookupD st.done pkg = none := by
        rcases hl : lookupD st.done pkg with _ | v
        · rfl
        · rw [hl] at h0; simp at h0
      have hfok : fetchOkB env pkg = true := by
        simp only [Bool.not_eq_false] at h1 h3
        have h2' : (env.glob pkg).length = 1 := by
          by_contra hc
          exact h2 hc
        simp [fetchOkB, h1, h2', h3]
      have hmem : pkg ∈ U := hU pkg hfok
      refine dlList_noTimeout (fun d st h => ih d st h)
        (fun d st => remaining_le_of_extends U (download_extends env fuel d st)) _ _ ?_
      exact Nat.lt_of_lt_of_le (remaining_strict hnone hmem) (Nat.le_of_lt_succ hst)

/-! ### Invariants preserved by the resolver -/

theorem dlList_preserve (P : DLState → Prop) {f : String → DLState → DLOut}
    (hf : ∀ d st, P st → P (f d st).state) :
    ∀ (l : List String) (st : DLState), P st → P (dlList f l st).state := by
  intro l
  induction l with
  | nil => intro st h; exact h
  | cons d rest ih =>
    intro st h
    simp only [dlList]
    rcases hd : f d st with st1 | ⟨e1, st1⟩ | st1
    · refine ih st1 ?_
      have := hf d st h; rwa [hd] at this
    · have := hf d st h; rwa [hd] at this
    · have := hf d st h; rwa [hd] at this

theorem download_preserve (P : DLState → Prop) (env : Env)
    (hstep : ∀ pkg st, lookupD st.done pkg = none → P st → P (stepState env pkg st)) :
    ∀ (fuel : Nat) (pkg : String) (st : DLState), P st → P (download env fuel pkg st).state := by
  intro fuel
  induction fuel with
  | zero => intro pkg st h; exact h
  | succ fuel ih =>
    intro pkg st h
    simp only [download]
    split
    · exact h
    split
    · exact h
    split
    · exact h
    split
    · exact h
    rename_i h0 _ _ _
    have hnone : lookupD st.done pkg = none := by
      rcases hl : lookupD st.done pkg with _ | v
      · rfl
      · rw [hl] at h0; simp at h0
    split
    · exact hstep pkg st hnone h
    · exact dlList_preserve P ih _ _ (hstep pkg st hnone h)

theorem doneKeys_stepState (env : Env) (pkg : String) (st : DLState) :
    doneKeys (stepState env pkg st).done = doneKeys st.done ++ [pkg] := by
  show doneKeys (st.done ++ [(pkg, stepDeb env pkg)]) = _
  rw [doneKeys_append]
  rfl

/-- The resolver never records the same name twice. -/
theorem download_nodup (env : Env) (fuel : Nat) (pkg : String) (st : DLState)
    (h : (doneKeys st.done).Nodup) :
    (doneKeys (download env fuel pkg st).state.done).Nodup := by
  refine download_preserve (fun st => (doneKeys st.done).Nodup) env ?_ fuel pkg st h
  intro pkg st hnone hn
  rw [doneKeys_stepState]
  rw [List.nodup_append]
  refine ⟨hn, List.nodup_singleton pkg, ?_⟩
  intro x hx hx1
  rw [List.mem_singleton] at hx1
  subst hx1
  exact (lookupD_none_iff.mp hnone) hx

/-- The fetch trace and the recorded keys advance in lockstep: starting from
matching components, every name is fetched exactly when it is recorded. -/
theorem download_synced (env : Env) (fuel : Nat) (pkg : String) (st : DLState)
    (h : st.fetched = doneKeys st.done) :
    (download env fuel pkg st).state.fetched = doneKeys (download env fuel pkg st).state.done := by
  refine download_preserve (fun st => st.fetched = doneKeys st.done) env ?_ fuel pkg st h
  intro pkg st _ hs
  show st.fetched ++ [pkg] = doneKeys (stepState env pkg st).done
  rw [doneKeys_stepState, hs]

/-- Every recorded entry keeps its own name as its key. -/
theorem download_wellNamed (env : Env) (fuel : Nat) (pkg : String) (st : DLState)
    (h : ∀ pd ∈ st.done, (Prod.snd pd).name = pd.1) :
    ∀ pd ∈ (download env fuel pkg st).state.done, (Prod.snd pd).name = pd.1 := by
  refine download_preserve (fun st => ∀ pd ∈ st.done, (Prod.snd pd).name = pd.1) env ?_
    fuel pkg st h
  intro pkg st _ hw
  intro pd hpd
  rcases List.mem_append.mp hpd with h' | h'
  · exact hw pd h'
  · rw [List.mem_singleton] at h'
    subst h'
    rfl

/-! ### Reachability and closure completeness -/

/-- Names reachable from `p` through the dependency declarations of
fetchable packages: `p` itself, plus inductively the parsed dependencies of
any reachable fetchable package. -/
inductive Reach (env : Env) : String → String → Prop
  | refl (p : String) : Reach env p p
  | step {p q r : String} : Reach env p q → fetchOkB env q = true →
      r ∈ pkgDeps env q → Reach env p r

theorem reach_mem_of_closed {env : Env} {K : List String}
    (hK : ∀ x ∈ K, ∀ d ∈ pkgDeps env x, d ∈ K) {r q : String}
    (hr : r ∈ K) (h : Reach env r q) : q ∈ K := by
  induction h with
  | refl => exact hr
  | step h1 hf hd ih => exact hK _ ih _ hd

theorem dlList_closed {env : Env} {f : String → DLState → DLOut}
    (hext : ∀ d st, Extends st (f d st).state)
    (hla : ∀ d st st', f d st = .ok st' → ∀ x ∈ doneKeys st'.done,
      x ∈ doneKeys st.done ∨ ∀ e ∈ pkgDeps env x, e ∈ doneKeys st'.done) :
    ∀ (l : List String) (st st' : DLState), dlList f l st = .ok st' →
      ∀ x ∈ doneKeys st'.done,
        x ∈ doneKeys st.done ∨ ∀ e ∈ pkgDeps env x, e ∈ doneKeys st'.done := by
  intro l
  induction l with
  | nil =>
    intro st st' h x hx
    cases h
    exact Or.inl hx
  | cons d rest ih =>
    intro st st' h x hx
    simp only [dlList] at h
    rcases hd : f d st with st1 | ⟨e1, st1⟩ | st1 <;> rw [hd] at h
    · have h1 : dlList f rest st1 = .ok st' := h
      have hext1 : Extends st1 st' := by
        have := dlList_extends hext rest st1; rwa [h1] at this
      rcases ih st1 st' h1 x hx with hx1 | hcl
      · rcases hla d st st1 hd x hx1 with h' | h'
        · exact Or.inl h'
        · exact Or.inr (fun e he => hext1.keys_sub (h' e he))
      · exact Or.inr hcl
    · exact absurd h (by simp)
    · exact absurd h (by simp)

/-- On success, every newly recorded package has all its parsed dependencies
recorded as well: the final `done` map is dependency-closed relative to the
initial one. -/
theorem download_closed (env : Env) :
    ∀ (fuel : Nat) (pkg : String) (st st' : DLState),
      download env fuel pkg st = .ok st' → ∀ x ∈ doneKeys st'.done,
        x ∈ doneKeys st.done ∨ ∀ e ∈ pkgDeps env x, e ∈ doneKeys st'.done := by
  intro fuel
  induction fuel with
  | zero => intro pkg st st' h; exact absurd h (by simp [download])
  | succ fuel ih =>
    intro pkg st st' h
    simp only [download] at h
    split at h
    · cases h
      intro x hx
      exact Or.inl hx
    split at h
    · exact absurd h (by simp)
    split at h
    · exact absurd h (by simp)
    split at h
    · exact absurd h (by simp)
    split at h
    · exact absurd h (by simp)
    · intro x hx
      have hdeps : ∀ d ∈ pkgDeps env pkg, d ∈ doneKeys st'.done :=
        dlList_ok_mem (download_extends env fuel)
          (fun d st st' hok => download_ok_mem hok) _ _ _ h
      rcases dlList_closed (download_extends env fuel) ih _ _ _ h x hx with h' | h'
      · rw [doneKeys_stepState] at h'
        rcases List.mem_append.mp h' with h'' | h''
        · exact Or.inl h''
        · rw [List.mem_singleton] at h''
          subst h''
          exact Or.inr hdeps
      · exact Or.inr h'

/-! ### Manifest lemmas -/

/-- The annotation entry generated for one closure entry. -/
def mkAnn (pd : String × deb) : AnnPair :=
  ⟨debKey (Prod.snd pd).name, debValue (Prod.snd pd)⟩

theorem debKey_inj {a b : String} (h : debKey a = debKey b) : a = b := by
  have hd : (debKey a).data = (debKey b).data := by rw [h]
  simp only [debKey, String.data_append] at hd
  have h2 := List.append_cancel_left hd
  cases a
  cases b
  exact congrArg String.mk h2

/-- When every copy succeeds and the sanitizer is the identity, the loop
appends exactly one annotation and one copied tree per closure entry, in
closure order. -/
theorem aciLoop_success (aenv : AciEnv) (hcopy : ∀ p, aenv.copyOk p = true)
    (hsan : ∀ s, aenv.sanitize s = some s) :
    ∀ (fs : List (String × deb)) (m : ImageManifest) (root : List String),
      aciLoop aenv fs m root =
        ⟨none, ⟨m.base, m.anns ++ fs.map mkAnn⟩,
          root ++ fs.map (fun pd => (Prod.snd pd).path)⟩ := by
  intro fs
  induction fs with
  | nil => intro m root; simp [aciLoop]
  | cons pd rest ih =>
    intro m root
    obtain ⟨n, d⟩ := pd
    show aciLoop aenv ((n, d) :: rest) m root = _
    simp only [aciLoop, hcopy d.path, hsan (debKey d.name)]
    rw [ih]
    simp [annSet, mkAnn, List.append_assoc]

/-- In a well-named `done` list with distinct keys, exactly one generated
annotation carries the key of each recorded package. -/
theorem count_ann_one :
    ∀ (l : List (String × deb)), (doneKeys l).Nodup →
      (∀ pd ∈ l, (Prod.snd pd).name = pd.1) →
      ∀ q ∈ doneKeys l,
        (l.map mkAnn).countP (fun a => decide (a.name = debKey q)) = 1 := by
  intro l
  induction l with
  | nil => intro _ _ q hq; cases hq
  | cons pd rest ih =>
    intro hnd hwn q hq
    obtain ⟨n, d⟩ := pd
    have hdn : d.name = n := hwn (n, d) (List.mem_cons_self _ _)
    have hnd' : (doneKeys rest).Nodup := (List.nodup_cons.mp hnd).2
    have hnin : n ∉ doneKeys rest := (List.nodup_cons.mp hnd).1
    rcases List.mem_cons.mp hq with hq' | hq'
    · subst hq'
      simp only [List.map_cons, List.countP_cons, mkAnn, hdn]
      have hzero : (rest.map mkAnn).countP (fun a => decide (a.name = debKey q)) = 0 := by
        rw [List.countP_eq_zero]
        intro a ha
        rw [List.mem_map] at ha
        obtain ⟨pd', hpd', rfl⟩ := ha
        have : (Prod.snd pd').name = pd'.1 := hwn pd' (List.mem_cons_of_mem _ hpd')
        simp only [mkAnn, this, decide_eq_true_eq]
        intro hc
        exact hnin (debKey_inj hc ▸ List.mem_map_of_mem Prod.fst hpd')
      rw [hzero]
      simp
    · have hne : n ≠ q := fun he => hnin (he ▸ hq')
      simp only [List.map_cons, List.countP_cons, mkAnn, hdn]
      rw [ih hnd' (fun pd hpd => hwn pd (List.mem_cons_of_mem _ hpd)) q hq']
      have : ¬(debKey n = debKey q) := fun hc => hne (debKey_inj hc)
      simp [this]

/-- The annotate loop never touches the base manifest fields and only ever
appends to the annotation list, whatever happens. -/
theorem aciLoop_frame (aenv : AciEnv) :
    ∀ (fs : List (String × deb)) (m : ImageManifest) (root : List String),
      (aciLoop aenv fs m root).manifest.base = m.base ∧
        ∃ t, (aciLoop aenv fs m root).manifest.anns = m.anns ++ t := by
  intro fs
  induction fs with
  | nil => intro m root; exact ⟨rfl, ⟨[], by simp [aciLoop]⟩⟩
  | cons pd rest ih =>
    intro m root
    obtain ⟨n, d⟩ := pd
    show (aciLoop aenv ((n, d) :: rest) m root).manifest.base = m.base ∧ _
    simp only [aciLoop]
    split
    · exact ⟨rfl, ⟨[], by simp⟩⟩
    · rcases hs : aenv.sanitize (debKey d.name) with _ | k
      · exact ⟨rfl, ⟨[], by simp⟩⟩
      · obtain ⟨hb, t, ht⟩ := ih (annSet m k (debValue d)) (root ++ [d.path])
        refine ⟨hb, ⟨⟨k, debValue d⟩ :: t, ?_⟩⟩
        rw [ht]
        simp [annSet]

/-- A copy failure stops the merge at once: the packages before the failure
are merged (in order) and annotated, nothing after it is touched, and the
loop reports the filesystem error of the failing tree. -/
theorem aciLoop_abort (aenv : AciEnv) :
    ∀ (pre : List (String × deb)) (bad : String × deb) (post : List (String × deb))
      (m : ImageManifest) (root : List String),
      (∀ pd ∈ pre, aenv.copyOk (Prod.snd pd).path = true) →
      (∀ pd ∈ pre, aenv.sanitize (debKey (Prod.snd pd).name) = some (debKey (Prod.snd pd).name)) →
      aenv.copyOk (Prod.snd bad).path = false →
      aciLoop aenv (pre ++ bad :: post) m root =
        ⟨some (.filesystemError (Prod.snd bad).path),
          ⟨m.base, m.anns ++ pre.map mkAnn⟩,
          root ++ pre.map (fun pd => (Prod.snd pd).path)⟩ := by
  intro pre
  induction pre with
  | nil =>
    intro bad post m root _ _ hbad
    obtain ⟨nb, db⟩ := bad
    show aciLoop aenv ((nb, db) :: post) m root = _
    simp [aciLoop, hbad]
  | cons pd rest ih =>
    intro bad post m root hcopy hsan hbad
    obtain ⟨n, d⟩ := pd
    have hc : aenv.copyOk d.path = true := hcopy (n, d) (List.mem_cons_self _ _)
    have hs : aenv.sanitize (debKey d.name) = some (debKey d.name) :=
      hsan (n, d) (List.mem_cons_self _ _)
    show aciLoop aenv ((n, d) :: (rest ++ bad :: post)) m root = _
    simp only [aciLoop, hc, hs]
    rw [ih bad post (annSet m (debKey d.name) (debValue d)) (root ++ [d.path])
      (fun pd hpd => hcopy pd (List.mem_cons_of_mem _ hpd))
      (fun pd hpd => hsan pd (List.mem_cons_of_mem _ hpd)) hbad]
    simp [annSet, mkAnn, List.append_assoc]

/-! ### Structure of `parseDeps`: trimming the line commutes with the
clause-wise processing -/

/-- The first space-separated token of a trimmed clause: the per-clause body
of `parseDeps`. -/
def tok (p : List Char) : List Char := (splitChar ' ' (trimSpace p)).headD []

theorem splitChar_ne_nil (c : Char) : ∀ l : List Char, splitChar c l ≠ [] := by
  intro l
  induction l with
  | nil => simp [splitChar]
  | cons a l ih =>
    simp only [splitChar]
    split
    · simp
    · cases h : splitChar c l <;> simp [h]

theorem splitChar_cons_ne {a c : Char} (h : ¬a = c) {l : List Char} {p : List Char}
    {ps : List (List Char)} (hl : splitChar c l = p :: ps) :
    splitChar c (a :: l) = (a :: p) :: ps := by
  simp only [splitChar, if_neg h, hl]

theorem splitChar_no_sep {c : Char} : ∀ {l : List Char}, (∀ x ∈ l, ¬x = c) →
    splitChar c l = [l] := by
  intro l
  induction l with
  | nil => intro _; rfl
  | cons a l ih =>
    intro h
    have ha : ¬a = c := h a (List.mem_cons_self _ _)
    exact splitChar_cons_ne ha (ih (fun x hx => h x (List.mem_cons_of_mem _ hx)))

theorem splitChar_singleton {c : Char} : ∀ {l p : List Char},
    splitChar c l = [p] → l = p := by
  intro l
  induction l with
  | nil =>
    intro p h
    simpa [splitChar] using h.symm
  | cons a l ih =>
    intro p h
    by_cases ha : a = c
    · rw [show splitChar c (a :: l) = [] :: splitChar c l by simp [splitChar, ha]] at h
      have := congrArg List.tail h
      simp at this
      exact absurd this (splitChar_ne_nil c l)
    · rcases hs : splitChar c l with _ | ⟨q, qs⟩
      · exact absurd hs (splitChar_ne_nil c l)
      · rw [splitChar_cons_ne ha hs] at h
        have h1 : a :: q = p := by
          have := congrArg (fun s => s.headD ([] : List Char)) h
          simpa using this
        have h2 : qs = [] := by
          have := congrArg List.tail h
          simpa using this
        subst h2
        rw [ih hs]
        exact h1

theorem trimLeft_cons_space {a : Char} (h : goIsSpace a = true) (l : List Char) :
    trimLeft (a :: l) = trimLeft l := by
  simp [trimLeft, List.dropWhile_cons, h]

theorem trimLeft_cons_not {a : Char} (h : goIsSpace a = false) (l : List Char) :
    trimLeft (a :: l) = a :: l := by
  simp [trimLeft, List.dropWhile_cons, h]

theorem trimLeft_all_space {l : List Char} (h : l.all goIsSpace = true) :
    trimLeft l = [] := by
  induction l with
  | nil => rfl
  | cons a l ih =>
    simp only [List.all_cons, Bool.and_eq_true] at h
    rw [trimLeft_cons_space h.1, ih h.2]

theorem trimRight_cons_not {a : Char} (h : goIsSpace a = false) (l : List Char) :
    trimRight (a :: l) = a :: trimRight l := by
  rcases hr : trimRight l with _ | ⟨b, r⟩
  · simp [trimRight, hr, h]
  · simp [trimRight, hr]

theorem trimRight_cons_of_ne_nil {l : List Char} (h : trimRight l ≠ []) (a : Char) :
    trimRight (a :: l) = a :: trimRight l := by
  rcases hr : trimRight l with _ | ⟨b, r⟩
  · exact absurd hr h
  · simp [trimRight, hr]

theorem trimRight_eq_nil_of_all {l : List Char} (h : l.all goIsSpace = true) :
    trimRight l = [] := by
  induction l with
  | nil => rfl
  | cons a l ih =>
    simp only [List.all_cons, Bool.and_eq_true] at h
    simp [trimRight, ih h.2, h.1]

theorem all_of_trimRight_eq_nil : ∀ {l : List Char}, trimRight l = [] →
    l.all goIsSpace = true := by
  intro l
  induction l with
  | nil => intro _; rfl
  | cons a l ih =>
    intro h
    rcases hr : trimRight l with _ | ⟨b, r⟩
    · simp only [trimRight, hr] at h
      split at h
      · simp only [List.all_cons, Bool.and_eq_true]
        exact ⟨by assumption, ih hr⟩
      · exact absurd h (by simp)
    · rw [trimRight_cons_of_ne_nil (by simp [hr]) a] at h
      exact absurd h (by simp)

theorem trimRight_idem : ∀ l : List Char, trimRight (trimRight l) = trimRight l := by
  intro l
  induction l with
  | nil => rfl
  | cons a l ih =>
    rcases hr : trimRight l with _ | ⟨b, r⟩
    · rcases hs : goIsSpace a with _ | _ <;> simp [trimRight, hr, hs]
    · have hne : trimRight l ≠ [] := by simp [hr]
      rw [trimRight_cons_of_ne_nil hne a]
      rw [trimRight_cons_of_ne_nil (by rw [ih]; exact hne) a, ih]

theorem trimLeft_trimRight_comm : ∀ l : List Char,
    trimLeft (trimRight l) = trimRight (trimLeft l) := by
  intro l
  induction l with
  | nil => rfl
  | cons a l ih =>
    rcases hs : goIsSpace a with _ | _
    · rw [trimLeft_cons_not hs, trimRight_cons_not hs, trimLeft_cons_not hs]
    · rw [trimLeft_cons_space hs]
      rcases hr : trimRight l with _ | ⟨b, r⟩
      · have hall := all_of_trimRight_eq_nil hr
        rw [show trimRight (a :: l) = [] from by simp [trimRight, hr, hs]]
        rw [trimLeft_all_space hall]
        rfl
      · rw [trimRight_cons_of_ne_nil (by simp [hr]) a, trimLeft_cons_space hs, ih]

theorem trimSpace_trimRight (l : List Char) : trimSpace (trimRight l) = trimSpace l := by
  show trimRight (trimLeft (trimRight l)) = trimRight (trimLeft l)
  rw [trimLeft_trimRight_comm, trimRight_idem]

theorem trimSpace_cons_space {a : Char} (h : goIsSpace a = true) (l : List Char) :
    trimSpace (a :: l) = trimSpace l := by
  show trimRight (trimLeft (a :: l)) = trimRight (trimLeft l)
  rw [trimLeft_cons_space h]

theorem tok_cons_space {a : Char} (h : goIsSpace a = true) (l : List Char) :
    tok (a :: l) = tok l := by
  simp only [tok, trimSpace_cons_space h]

theorem tok_trimRight (p : List Char) : tok (trimRight p) = tok p := by
  simp only [tok, trimSpace_trimRight]

theorem space_ne_comma {x : Char} (h : goIsSpace x = true) : ¬x = ',' := by
  intro hx
  subst hx
  exact absurd h (by decide)

theorem mapTok_trimLeft : ∀ l : List Char,
    (splitChar ',' (trimLeft l)).map tok = (splitChar ',' l).map tok := by
  intro l
  induction l with
  | nil => rfl
  | cons a l ih =>
    rcases hs : goIsSpace a with _ | _
    · rw [trimLeft_cons_not hs]
    · rcases hsp : splitChar ',' l with _ | ⟨p, ps⟩
      · exact absurd hsp (splitChar_ne_nil _ _)
      · rw [trimLeft_cons_space hs, ih, splitChar_cons_ne (space_ne_comma hs) hsp, hsp]
        simp only [List.map_cons]
        rw [tok_cons_space hs]

/-- Replace the last part of a split by a function of itself. -/
def modLast (f : List Char → List Char) : List (List Char) → List (List Char)
  | [] => []
  | [p] => [f p]
  | p :: q :: rest => p :: modLast f (q :: rest)

theorem modLast_cons_of_ne_nil (f : List Char → List Char) (t : List (List Char))
    (h : t ≠ []) (p : List Char) : modLast f (p :: t) = p :: modLast f t := by
  cases t with
  | nil => exact absurd rfl h
  | cons q rest => rfl

theorem splitChar_trimRight : ∀ l : List Char,
    splitChar ',' (trimRight l) = modLast trimRight (splitChar ',' l) := by
  intro l
  induction l with
  | nil => rfl
  | cons a l ih =>
    by_cases ha : a = ','
    · subst ha
      rw [trimRight_cons_not (by decide) l]
      rw [show splitChar ',' (',' :: trimRight l) = [] :: splitChar ',' (trimRight l) from
        by simp [splitChar]]
      rw [show splitChar ',' (',' :: l) = [] :: splitChar ',' l from by simp [splitChar]]
      rw [modLast_cons_of_ne_nil trimRight (splitChar ',' l) (splitChar_ne_nil ',' l) []]
      rw [ih]
    · rcases hr : trimRight l with _ | ⟨b, r⟩
      · have hall := all_of_trimRight_eq_nil hr
        have hnc : ∀ x ∈ a :: l, ¬x = ',' := by
          intro x hx
          rcases List.mem_cons.mp hx with h' | h'
          · subst h'; exact ha
          · exact space_ne_comma (by simpa using List.all_eq_true.mp hall x h')
        have hR : splitChar ',' (a :: l) = [a :: l] := splitChar_no_sep hnc
        rw [hR]
        show splitChar ',' (trimRight (a :: l)) = [trimRight (a :: l)]
        rcases hs : goIsSpace a with _ | _
        · rw [show trimRight (a :: l) = [a] from by simp [trimRight, hr, hs]]
          exact splitChar_no_sep (by
            intro x hx
            rw [List.mem_singleton] at hx
            subst hx
            exact ha)
        · rw [show trimRight (a :: l) = [] from by simp [trimRight, hr, hs]]
          rfl
      · have hne : trimRight l ≠ [] := by simp [hr]
        rw [trimRight_cons_of_ne_nil hne a]
        rcases hsp : splitChar ',' (trimRight l) with _ | ⟨p, ps⟩
        · exact absurd hsp (splitChar_ne_nil _ _)
        · rw [splitChar_cons_ne ha hsp]
          rcases hsp2 : splitChar ',' l with _ | ⟨p2, ps2⟩
          · exact absurd hsp2 (splitChar_ne_nil _ _)
          · rw [splitChar_cons_ne ha hsp2]
            rw [ih, hsp2] at hsp
            cases ps2 with
            | nil =>
              have hlp : l = p2 := splitChar_singleton hsp2
              simp only [modLast] at hsp ⊢
              injection hsp with h1 h2
              subst h2
              subst h1
              subst hlp
              rw [trimRight_cons_of_ne_nil hne a]
            | cons q qs =>
              rw [modLast_cons_of_ne_nil trimRight (q :: qs) (by simp) p2] at hsp
              injection hsp with h1 h2
              subst h1
              subst h2
              rw [modLast_cons_of_ne_nil trimRight (q :: qs) (by simp) (a :: p2)]

theorem mapTok_modLast : ∀ S : List (List Char),
    (modLast trimRight S).map tok = S.map tok := by
  intro S
  induction S with
  | nil => rfl
  | cons p S ih =>
    cases S with
    | nil => simp [modLast, tok_trimRight]
    | cons q rest =>
      rw [modLast_cons_of_ne_nil trimRight (q :: rest) (by simp) p]
      simp only [List.map_cons]
      rw [show (modLast trimRight (q :: rest)).map tok = (q :: rest).map tok from ih]
      rfl

theorem mapTok_trimSpace (l : List Char) :
    (splitChar ',' (trimSpace l)).map tok = (splitChar ',' l).map tok := by
  show (splitChar ',' (trimRight (trimLeft l))).map tok = _
  rw [splitChar_trimRight, mapTok_modLast, mapTok_trimLeft]

/-- The parser as amended C2 describes it: split the raw declaration on
commas, trim each clause, split the trimmed clause on single space
characters, and keep the first piece of each clause; a wholly
empty-after-trimming declaration yields no names. -/
def claimParse (line : String) : List String :=
  if (trimSpace line.toList).length = 0 then []
  else ((splitChar ',' line.toList).map tok).map List.asString

/-- Whitespace-run tokenization (any `goIsSpace` character separates tokens,
runs collapse, no empty tokens), used to state the original C2 wording. -/
def wsTokensAux (cur : List Char) : List Char → List (List Char)
  | [] => if cur.length = 0 then [] else [cur.reverse]
  | a :: l =>
    if goIsSpace a then
      if cur.length = 0 then wsTokensAux [] l else cur.reverse :: wsTokensAux [] l
    else wsTokensAux (a :: cur) l

/-- Whitespace-run tokenization of a character list. -/
def wsTokens (l : List Char) : List (List Char) := wsTokensAux [] l

/-- The original C2 wording as a function: split the declaration on commas,
whitespace-tokenize each trimmed clause, and return the first token of each
clause. -/
def wsFirstTokenParse (line : String) : List String :=
  (splitChar ',' line.toList).map (fun cl => ((wsTokens (trimSpace cl)).headD []).asString)

example : wsFirstTokenParse "a\tb" = ["a"] := by decide
example : parseDeps "a\tb" = ["a\tb"] := by decide

/-- `parseDeps` agrees with the clause-wise description: trimming the whole
line first changes nothing beyond the emptiness test. -/
theorem parseDeps_eq_claimParse : ∀ line : String, parseDeps line = claimParse line := by
  intro line
  show (parseDepsL line.toList).map List.asString = _
  rw [claimParse]
  by_cases h : (trimSpace line.toList).length = 0
  · rw [if_pos h]
    have hp : parseDepsL line.toList = [] := by
      simp only [parseDepsL]
      rw [if_pos h]
    rw [hp]
    rfl
  · rw [if_neg h]
    have hne : ¬(splitChar ',' (trimSpace line.toList)).length = 0 := by
      intro hc
      exact splitChar_ne_nil ',' _ (List.length_eq_zero.mp hc)
    have hbody : parseDepsL line.toList =
        (splitChar ',' (trimSpace line.toList)).map tok := by
      simp only [parseDepsL]
      rw [if_neg h, if_neg hne]
      rfl
    rw [hbody, mapTok_trimSpace]

/-! ### Concrete instances used by witnesses -/

/-- An assembler oracle where every external step succeeds and the sanitizer
is the identity. -/
def aenvId : AciEnv :=
  ⟨true, fun _ => true, fun s => some s, true, true, true⟩

/-- A fetcher whose glob never matches any artifact. -/
def denvZero : Env :=
  ⟨fun _ => true, fun _ => [], fun _ => true, fun _ => true⟩

/-- A pre-recorded package used to exercise lookup preservation. -/
def dX : deb := ⟨"X", "/w/X/out", "0.1", "amd64"⟩

/-- A starting state that already holds `dX`. -/
def stX : DLState := ⟨[("X", dX)], ["X"]⟩

theorem denvD_support : ∀ p, fetchOkB denvD p = true → p ∈ ["A", "B", "C", "D"] := by
  intro p hp
  simp only [fetchOkB, Bool.and_eq_true, beq_iff_eq] at hp
  have hg := hp.1.2
  by_cases hA : p = "A"
  · simp [hA]
  by_cases hB : p = "B"
  · simp [hB]
  by_cases hC : p = "C"
  · simp [hC]
  by_cases hD : p = "D"
  · simp [hD]
  exfalso
  simp only [denvD, if_neg hA, if_neg hB, if_neg hC, if_neg hD] at hg
  exact absurd hg (by decide)

/-! ### The claims -/

/-- C1: on any successful resolution, the closure has pairwise distinct
package names, the fetch trace coincides with the recorded names (so each
name is fetched exactly once), every name reachable from the roots is in the
closure, and the annotate loop emits exactly one annotation per closure
entry (exactly one of which carries each recorded name's key); in
particular, on the diamond graph where A depends on B and C and both depend
on D, resolving A succeeds, yields exactly the closure entries A, B, D, C,
and fetches D exactly once. -/
theorem C1_closure_unique :
    (∀ (env : Env) (aenv : AciEnv) (fuel : Nat) (roots : List String) (st' : DLState)
      (m : ImageManifest),
      downloadList env fuel roots ⟨[], []⟩ = .ok st' →
      (∀ p, aenv.copyOk p = true) →
      (∀ s, aenv.sanitize s = some s) →
      (doneKeys st'.done).Nodup ∧
      st'.fetched = doneKeys st'.done ∧
      (∀ r ∈ roots, ∀ q, Reach env r q → q ∈ doneKeys st'.done) ∧
      (aciLoop aenv st'.done m []).manifest.anns = m.anns ++ st'.done.map mkAnn ∧
      (∀ q ∈ doneKeys st'.done,
        (st'.done.map mkAnn).countP (fun a => decide (a.name = debKey q)) = 1)) ∧
    ((downloadList denvD 5 ["A"] ⟨[], []⟩).isOk = true ∧
      doneKeys (downloadList denvD 5 ["A"] ⟨[], []⟩).state.done = ["A", "B", "D", "C"] ∧
      (downloadList denvD 5 ["A"] ⟨[], []⟩).state.fetched.count "D" = 1) := by
  refine ⟨?_, by decide, by decide, by decide⟩
  intro env aenv fuel roots st' m hdl hcopy hsan
  have hstate : (downloadList env fuel roots ⟨[], []⟩).state = st' := by rw [hdl]; rfl
  have hnodup : (doneKeys st'.done).Nodup := by
    rw [← hstate]
    exact dlList_preserve (fun st => (doneKeys st.done).Nodup)
      (fun d st h => download_nodup env fuel d st h) roots ⟨[], []⟩ (by simp [doneKeys])
  have hsync : st'.fetched = doneKeys st'.done := by
    rw [← hstate]
    exact dlList_preserve (fun st => st.fetched = doneKeys st.done)
      (fun d st h => download_synced env fuel d st h) roots ⟨[], []⟩ rfl
  have hwn : ∀ pd ∈ st'.done, (Prod.snd pd).name = pd.1 := by
    rw [← hstate]
    exact dlList_preserve (fun st => ∀ pd ∈ st.done, (Prod.snd pd).name = pd.1)
      (fun d st h => download_wellNamed env fuel d st h) roots ⟨[], []⟩
      (by intro pd hpd; cases hpd)
  have hclosed : ∀ x ∈ doneKeys st'.done, ∀ e ∈ pkgDeps env x, e ∈ doneKeys st'.done := by
    intro x hx
    rcases dlList_closed (download_extends env fuel) (download_closed env fuel)
      roots ⟨[], []⟩ st' hdl x hx with h' | h'
    · exact absurd h' (by simp [doneKeys])
    · exact h'
  have hroots : ∀ r ∈ roots, r ∈ doneKeys st'.done :=
    fun r hr => dlList_ok_mem (download_extends env fuel)
      (fun d st st' h => download_ok_mem h) roots ⟨[], []⟩ st' hdl r hr
  refine ⟨hnodup, hsync, ?_, ?_, ?_⟩
  · intro r hr q hq
    exact reach_mem_of_closed hclosed (hroots r hr) hq
  · rw [aciLoop_success aenv hcopy hsan st'.done m []]
  · intro q hq
    exact count_ann_one st'.done hnodup hwn q hq

/-- C1 witness: the general statement applied to the diamond fetcher. -/
theorem C1_witness :
    (downloadList denvD 5 ["A"] ⟨[], []⟩ =
      .ok (downloadList denvD 5 ["A"] ⟨[], []⟩).state) ∧
    (doneKeys (downloadList denvD 5 ["A"] ⟨[], []⟩).state.done).Nodup := by
  refine ⟨by decide, ?_⟩
  exact (C1_closure_unique.1 denvD aenvId 5 ["A"] _ ⟨"", []⟩ (by decide)
    (fun p => rfl) (fun s => rfl)).1

/-- C2 counterexample: the claim says each trimmed clause is
whitespace-tokenized and the first token returned; on the tab-separated
declaration `"a\tb"` that reading yields `["a"]`, but `parseDeps` splits
clauses on the space character only and returns `["a\tb"]`. -/
theorem C2_counterexample :
    parseDeps "a\tb" = ["a\tb"] ∧ wsFirstTokenParse "a\tb" = ["a"] ∧
      parseDeps "a\tb" ≠ wsFirstTokenParse "a\tb" := by decide

/-- C2 amended: `parseDeps` splits the declaration on commas and returns,
for each clause, the first piece of the trimmed clause split on single
space characters (not on general whitespace); the two examples of the
claim hold as stated. -/
theorem C2_amended :
    (∀ line : String, parseDeps line = claimParse line) ∧
      parseDeps "libc6 (>= 2.14), libssl1.1" = ["libc6", "libssl1.1"] ∧
      parseDeps "foo | bar" = ["foo"] :=
  ⟨parseDeps_eq_claimParse, by decide, by decide⟩

/-- C3 counterexample: empty clauses are not skipped — `parseDeps "a,,b"`
returns an empty-string dependency name, contradicting the claim that Parse
never returns one. -/
theorem C3_counterexample :
    parseDeps "a,,b" = ["a", "", "b"] ∧ "" ∈ parseDeps "a,,b" ∧
      parseDeps "a," = ["a", ""] := by decide

/-- C3 amended: a clause that trims to the empty token list is not skipped:
every comma-separated clause of a non-whitespace-only declaration
contributes exactly one name (the empty string for an empty clause), so
`"a,,b"` parses to `["a", "", "b"]` and a trailing comma contributes `""`. -/
theorem C3_amended :
    (∀ line : String, trimSpace line.toList ≠ [] →
      (parseDeps line).length = (splitChar ',' (trimSpace line.toList)).length) ∧
      parseDeps "a,,b" = ["a", "", "b"] ∧ parseDeps "a," = ["a", ""] := by
  refine ⟨?_, by decide, by decide⟩
  intro line h
  have hlen : ¬(trimSpace line.toList).length = 0 := by
    intro hc
    exact h (List.length_eq_zero.mp hc)
  have hne : ¬(splitChar ',' (trimSpace line.toList)).length = 0 := by
    intro hc
    exact splitChar_ne_nil ',' _ (List.length_eq_zero.mp hc)
  show ((parseDepsL line.toList).map List.asString).length = _
  simp only [parseDepsL]
  rw [if_neg hlen, if_neg hne]
  simp

/-- C3 witness: the amended per-clause count at a concrete declaration. -/
theorem C3_witness :
    trimSpace ("a,,b".toList) ≠ [] ∧
      (parseDeps "a,,b").length = (splitChar ',' (trimSpace ("a,,b".toList))).length :=
  ⟨by decide, C3_amended.1 "a,,b" (by decide)⟩

/-- C4: whatever the closure and the oracle outcomes, annotating never
changes the base manifest fields and only appends to the annotation list,
so every pre-existing annotation (whatever its key) survives unchanged.
The vendored `Annotations.Set` is modelled from the spec as an append. -/
theorem C4_annotate_frame :
    ∀ (aenv : AciEnv) (fs : List (String × deb)) (m : ImageManifest) (root : List String),
      (aciLoop aenv fs m root).manifest.base = m.base ∧
        ∃ t, (aciLoop aenv fs m root).manifest.anns = m.anns ++ t :=
  fun aenv fs m root => aciLoop_frame aenv fs m root

/-- C5: resolving an already-recorded name is a successful no-op (nothing is
fetched, the state is returned untouched, so the first recorded version
wins), and a root list resolves to exactly the same outcome as the same
list with later duplicates removed. -/
theorem C5_idempotent_dedup :
    (∀ (env : Env) (fuel : Nat) (pkg : String) (st : DLState),
      (lookupD st.done pkg).isSome = true → download env (fuel + 1) pkg st = .ok st) ∧
    (∀ (env : Env) (fuel : Nat) (roots : List String) (st : DLState),
      downloadList env (fuel + 1) roots st =
        downloadList env (fuel + 1) (dedupFirst roots) st) :=
  ⟨fun _ fuel _ _ h => download_skip fuel h,
   fun env fuel roots st => downloadList_dedup env fuel roots st⟩

/-- C5 witness: skipping a recorded name and deduplicating a root list on
the diamond fetcher. -/
theorem C5_witness :
    ((lookupD (downloadList denvD 5 ["A"] ⟨[], []⟩).state.done "A").isSome = true) ∧
      download denvD 1 "A" (downloadList denvD 5 ["A"] ⟨[], []⟩).state =
        .ok (downloadList denvD 5 ["A"] ⟨[], []⟩).state ∧
      downloadList denvD 3 ["A", "A"] ⟨[], []⟩ =
        downloadList denvD 3 (dedupFirst ["A", "A"]) ⟨[], []⟩ :=
  ⟨by decide, C5_idempotent_dedup.1 denvD 0 "A" _ (by decide),
    C5_idempotent_dedup.2 denvD 2 ["A", "A"] ⟨[], []⟩⟩

/-- C6: with fuel exceeding the number of not-yet-recorded fetchable names
(finite dependency graph), the resolver never exhausts its fuel: the
visited-name check bounds the recursion even on cyclic graphs. -/
theorem C6_terminates :
    ∀ (env : Env) (U : List String), (∀ p, fetchOkB env p = true → p ∈ U) →
      ∀ (fuel : Nat) (pkg : String) (st : DLState), remaining U st < fuel →
        (download env fuel pkg st).isTimeout = false :=
  download_noTimeout

/-- C6 witness: termination on the diamond graph with its four-name
universe. -/
theorem C6_witness :
    remaining ["A", "B", "C", "D"] ⟨[], []⟩ < 5 ∧
      (download denvD 5 "A" ⟨[], []⟩).isTimeout = false :=
  ⟨by decide, C6_terminates denvD ["A", "B", "C", "D"] denvD_support 5 "A" ⟨[], []⟩ (by decide)⟩

/-- C7: a glob that yields zero or several artifacts for a requested name
makes `download` fail at once with `fetchError` and an unchanged state; at
the top level the whole conversion aborts with that error, no manifest is
written, no image is built, and the working directory is still removed. -/
theorem C7_fetch_multiplicity :
    (∀ (env : Env) (fuel : Nat) (pkg : String) (st : DLState),
      lookupD st.done pkg = none → env.aptOk pkg = true → (env.glob pkg).length ≠ 1 →
      download env (fuel + 1) pkg st = .err (.fetchError pkg) st) ∧
    (∀ (env : Env) (aenv : AciEnv) (fuel : Nat) (pkg : String) (rest : List String)
      (m : ImageManifest),
      env.aptOk pkg = true → (env.glob pkg).length ≠ 1 →
      convert env aenv (fuel + 1) (pkg :: rest) m =
        ⟨some (.dl (.fetchError pkg)), [], false, false, true⟩) := by
  have hdl : ∀ (env : Env) (fuel : Nat) (pkg : String) (st : DLState),
      lookupD st.done pkg = none → env.aptOk pkg = true → (env.glob pkg).length ≠ 1 →
      download env (fuel + 1) pkg st = .err (.fetchError pkg) st := by
    intro env fuel pkg st h1 h2 h3
    simp [download, h1, h2, h3]
  refine ⟨hdl, ?_⟩
  intro env aenv fuel pkg rest m h2 h3
  have hstep : downloadList env (fuel + 1) (pkg :: rest) ⟨[], []⟩ =
      .err (.fetchError pkg) ⟨[], []⟩ := by
    show dlList _ (pkg :: rest) _ = _
    simp only [dlList, hdl env fuel pkg ⟨[], []⟩ rfl h2 h3]
  simp only [convert, hstep]

/-- C7 witness: a fetcher that matches no artifact at all. -/
theorem C7_witness :
    lookupD ([] : List (String × deb)) "P" = none ∧ denvZero.aptOk "P" = true ∧
      (denvZero.glob "P").length ≠ 1 ∧
      download denvZero 1 "P" ⟨[], []⟩ = .err (.fetchError "P") ⟨[], []⟩ ∧
      convert denvZero aenvId 1 ["P"] ⟨"", []⟩ =
        ⟨some (.dl (.fetchError "P")), [], false, false, true⟩ :=
  ⟨rfl, rfl, by decide,
    C7_fetch_multiplicity.1 denvZero 0 "P" ⟨[], []⟩ rfl rfl (by decide),
    C7_fetch_multiplicity.2 denvZero aenvId 0 "P" [] ⟨"", []⟩ rfl (by decide)⟩

/-- C8: the first failing copy aborts the merge with `filesystemError`
before any later package is copied, and the trees already copied stay in
the target root (no rollback). -/
theorem C8_merge_abort :
    ∀ (aenv : AciEnv) (pre : List (String × deb)) (bad : String × deb)
      (post : List (String × deb)) (m : ImageManifest) (root : List String),
      (∀ pd ∈ pre, aenv.copyOk (Prod.snd pd).path = true) →
      (∀ pd ∈ pre,
        aenv.sanitize (debKey (Prod.snd pd).name) = some (debKey (Prod.snd pd).name)) →
      aenv.copyOk (Prod.snd bad).path = false →
      (aciLoop aenv (pre ++ bad :: post) m root).err =
          some (.filesystemError (Prod.snd bad).path) ∧
        (aciLoop aenv (pre ++ bad :: post) m root).rootfs =
          root ++ pre.map (fun pd => (Prod.snd pd).path) := by
  intro aenv pre bad post m root hcopy hsan hbad
  rw [aciLoop_abort aenv pre bad post m root hcopy hsan hbad]
  exact ⟨rfl, rfl⟩

/-- An assembler oracle whose copy step fails exactly on the path
`/w/bad`. -/
def aenvFail : AciEnv :=
  ⟨true, fun p => !(p == "/w/bad"), fun s => some s, true, true, true⟩

/-- C8 witness: a three-package merge whose middle package fails to copy. -/
theorem C8_witness :
    (aciLoop aenvFail
        [("x", ⟨"x", "/w/x", "1", "amd64"⟩), ("y", ⟨"y", "/w/bad", "1", "amd64"⟩),
          ("z", ⟨"z", "/w/z", "1", "amd64"⟩)] ⟨"", []⟩ []).err =
        some (.filesystemError "/w/bad") ∧
      (aciLoop aenvFail
        [("x", ⟨"x", "/w/x", "1", "amd64"⟩), ("y", ⟨"y", "/w/bad", "1", "amd64"⟩),
          ("z", ⟨"z", "/w/z", "1", "amd64"⟩)] ⟨"", []⟩ []).rootfs = ["/w/x"] :=
  C8_merge_abort aenvFail [("x", ⟨"x", "/w/x", "1", "amd64"⟩)]
    ("y", ⟨"y", "/w/bad", "1", "amd64"⟩) [("z", ⟨"z", "/w/z", "1", "amd64"⟩)] ⟨"", []⟩ []
    (by decide) (by decide) (by decide)

/-- C9: `parseDeps` is a total Lean function (it returns a plain list, so no
parse failure exists), and every whitespace-only or empty declaration
parses to the empty sequence. -/
theorem C9_parse_total :
    ∀ line : String, line.toList.all goIsSpace = true → parseDeps line = [] := by
  intro line h
  show (parseDepsL line.toList).map List.asString = []
  have ht : trimSpace line.toList = [] := by
    show trimRight (trimLeft line.toList) = []
    rw [trimLeft_all_space h]
    rfl
  have hlen : (trimSpace line.toList).length = 0 := by rw [ht]; rfl
  have hp : parseDepsL line.toList = [] := by
    simp only [parseDepsL]
    rw [if_pos hlen]
  rw [hp]
  rfl

/-- C9 witness: a whitespace-only declaration. -/
theorem C9_witness :
    (" \t ".toList.all goIsSpace = true) ∧ parseDeps " \t " = [] :=
  ⟨by decide, C9_parse_total " \t " (by decide)⟩

/-- C10: the `done` map only grows (in every outcome, success, error or fuel
exhaustion, the resulting map is the input map plus appended entries), a
recorded entry is never overwritten or removed, and a successful call on a
name guarantees the name is recorded. -/
theorem C10_monotone :
    ∀ (env : Env) (fuel : Nat) (pkg : String) (st : DLState),
      (∃ t, (download env fuel pkg st).state.done = st.done ++ t) ∧
      (∀ k v, lookupD st.done k = some v →
        lookupD (download env fuel pkg st).state.done k = some v) ∧
      (∀ st', download env fuel pkg st = .ok st' → (lookupD st'.done pkg).isSome = true) :=
  fun env fuel pkg st =>
    ⟨(download_extends env fuel pkg st).1,
     fun _ _ h => (download_extends env fuel pkg st).lookup_some h,
     fun _ h => download_ok_mem h⟩

/-- C10 witness: a pre-recorded entry survives a full diamond resolution,
and the resolved root is recorded on success. -/
theorem C10_witness :
    lookupD stX.done "X" = some dX ∧
      lookupD (download denvD 5 "A" stX).state.done "X" = some dX ∧
      download denvD 5 "A" ⟨[], []⟩ = .ok (download denvD 5 "A" ⟨[], []⟩).state ∧
      (lookupD (download denvD 5 "A" ⟨[], []⟩).state.done "A").isSome = true :=
  ⟨rfl, (C10_monotone denvD 5 "A" stX).2.1 "X" dX rfl, by decide,
    (C10_monotone denvD 5 "A" ⟨[], []⟩).2.2 _ (by decide)⟩

end Deb2Aci
